import Mathlib

/-!
# Verification of the UCB multi-armed bandit selector (`multiarm-bandits/ucb.py`)

Shallow embedding of the source file `src/multiarm-bandits/ucb.py`.

Modelling decisions:
* NumPy float values are modelled by `RVal`: an IEEE-754-style extended value,
  either NaN, +inf, -inf, or an exact rational (rounding of finite arithmetic
  is idealised away; the special-value rules `inf * 0 = nan`, `nan + x = nan`,
  `nan == x` is false, and NaN-propagating `max` follow IEEE 754 / NumPy).
* The finite behaviour of `np.log10` and `np.sqrt` is abstracted as function
  parameters `fl fs : ℚ → ℚ` (their special-value behaviour is explicit);
  no theorem below depends on the values these take on finite arguments.
* Python dicts (`arm_at_t`, `num_times_arm`) are insertion-ordered association
  lists; `dset` overwrites in place or appends, exactly like dict assignment.
* NumPy 1-D array indexing (`Q`, `Q_mu`) supports negative-index wrap-around
  and raises `IndexError` outside `[-len, len)`, as `npIdx` encodes.
* Python exceptions are explicit: `play` returns `Except PyErr ℤ` together
  with the (possibly partially mutated) state, `update` returns
  `Option PyErr` with the state; a raised exception leaves the mutations
  already performed in place, as in Python.
* `np.random.choice` over the argmax tie list is modelled by an explicit
  `pick : ℕ` parameter; the chosen element is the `pick % length`-th entry,
  so quantifying over `pick` quantifies over every possible random outcome.
* The `context` parameter of `play`/`update` is ignored by the source and is
  therefore omitted.
-/

/-- Python exception kinds relevant to this module.  `invalidArgument` is the
error class named by the specification's error taxonomy; the source never
raises it (it performs no argument validation). -/
inductive PyErr where
  | keyError
  | indexError
  | valueError
  | invalidArgument
  deriving DecidableEq, Repr

instance : DecidableEq (Except PyErr ℤ) := fun a b =>
  match a, b with
  | .error e, .error f =>
    match decEq e f with
    | isTrue h => isTrue (h ▸ rfl)
    | isFalse h => isFalse fun hh => h (Except.error.inj hh)
  | .ok x, .ok y =>
    match decEq x y with
    | isTrue h => isTrue (h ▸ rfl)
    | isFalse h => isFalse fun hh => h (Except.ok.inj hh)
  | .error _, .ok _ => isFalse fun hh => Except.noConfusion hh
  | .ok _, .error _ => isFalse fun hh => Except.noConfusion hh

/-- An IEEE-754-style float value: NaN, +inf, -inf, or an exact finite
rational. -/
inductive RVal where
  | nan
  | inf
  | ninf
  | fin (q : ℚ)
  deriving DecidableEq, Repr

namespace RVal

/-- IEEE addition on special values; exact rational addition on finite ones. -/
def add : RVal → RVal → RVal
  | nan, _ => nan
  | _, nan => nan
  | inf, ninf => nan
  | ninf, inf => nan
  | inf, _ => inf
  | _, inf => inf
  | ninf, _ => ninf
  | _, ninf => ninf
  | fin a, fin b => fin (a + b)

/-- IEEE multiplication: `inf * 0 = nan`, signs propagate. -/
def mul : RVal → RVal → RVal
  | nan, _ => nan
  | _, nan => nan
  | inf, inf => inf
  | inf, ninf => ninf
  | ninf, inf => ninf
  | ninf, ninf => inf
  | inf, fin b => if b = 0 then nan else if 0 < b then inf else ninf
  | fin a, inf => if a = 0 then nan else if 0 < a then inf else ninf
  | ninf, fin b => if b = 0 then nan else if 0 < b then ninf else inf
  | fin a, ninf => if a = 0 then nan else if 0 < a then ninf else inf
  | fin a, fin b => fin (a * b)

/-- IEEE division: `0/0 = nan`, `x/0 = ±inf` for `x ≠ 0`, `inf/inf = nan`,
`x/inf = 0` (signed zero identified with `0`). -/
def div : RVal → RVal → RVal
  | nan, _ => nan
  | _, nan => nan
  | inf, inf => nan
  | inf, ninf => nan
  | ninf, inf => nan
  | ninf, ninf => nan
  | inf, fin b => if 0 ≤ b then inf else ninf
  | ninf, fin b => if 0 ≤ b then ninf else inf
  | fin _, inf => fin 0
  | fin _, ninf => fin 0
  | fin a, fin b =>
      if b = 0 then (if a = 0 then nan else if 0 < a then inf else ninf)
      else fin (a / b)

/-- NumPy pairwise `maximum`: propagates NaN (so `array.max()` is NaN whenever
any entry is). -/
def fmax : RVal → RVal → RVal
  | nan, _ => nan
  | _, nan => nan
  | inf, _ => inf
  | _, inf => inf
  | ninf, b => b
  | a, ninf => a
  | fin a, fin b => fin (max a b)

/-- IEEE equality test (`==` of NumPy): NaN compares unequal to everything,
including itself. -/
def beq : RVal → RVal → Bool
  | fin a, fin b => decide (a = b)
  | inf, inf => true
  | ninf, ninf => true
  | _, _ => false

end RVal

/-- Embed a Python integer into the float world (exact, as NumPy would for the
integers arising here). -/
def intToR (n : ℤ) : RVal := .fin (n : ℚ)

/-- `np.sqrt`: NaN on NaN and on negative arguments, +inf on +inf; on a
nonnegative finite argument its finite behaviour is the abstracted `fs`. -/
def npSqrt (fs : ℚ → ℚ) : RVal → RVal
  | .nan => .nan
  | .inf => .inf
  | .ninf => .nan
  | .fin q => if q < 0 then .nan else .fin (fs q)

/-- `np.log10` applied to the positive integer `len(arm_at_t) + 1`; `fl` is
the abstracted finite behaviour (the source never reaches the `n = 0` case
this def makes total). -/
def npLog10 (fl : ℚ → ℚ) (n : ℕ) : RVal :=
  if n = 0 then .ninf else .fin (fl (n : ℚ))

/-- Normalise a (possibly negative) NumPy index against a length:
`some` of the physical index, or `none` for `IndexError`. -/
def npIdx (len : ℕ) (i : ℤ) : Option ℕ :=
  if 0 ≤ i ∧ i < (len : ℤ) then some i.toNat
  else if -(len : ℤ) ≤ i ∧ i < 0 then some (i + len).toNat
  else none

/-- NumPy 1-D array read `xs[i]`, with wrap-around for negative indices. -/
def npGet (xs : List RVal) (i : ℤ) : Option RVal :=
  (npIdx xs.length i).bind (fun j => xs.get? j)

/-- NumPy 1-D array write `xs[i] = v`.  (The source only writes at indices it
has just successfully read, so the out-of-range no-op branch is never hit on
the states the theorems below consider.) -/
def npSet (xs : List RVal) (i : ℤ) (v : RVal) : List RVal :=
  match npIdx xs.length i with
  | some j => xs.set j v
  | none => xs

/-- Python dict lookup `d[k]` (first matching key), `none` for `KeyError`. -/
def dget {α : Type} : List (ℤ × α) → ℤ → Option α
  | [], _ => none
  | (k, v) :: rest, key => if k = key then some v else dget rest key

/-- Python dict assignment `d[k] = v`: overwrite in place, or append. -/
def dset {α : Type} : List (ℤ × α) → ℤ → α → List (ℤ × α)
  | [], key, v => [(key, v)]
  | (k, w) :: rest, key, v =>
      if k = key then (k, v) :: rest else (k, w) :: dset rest key v

/-- `array.max()` as NumPy's left fold of `maximum` (none on an empty array,
where NumPy raises `ValueError`). -/
def listMax : List RVal → Option RVal
  | [] => none
  | x :: xs => some (xs.foldl RVal.fmax x)

/-- `argmax_rand(a)` from the source:
`np.random.choice(np.flatnonzero(a == a.max()))`, with the random draw
explicit as `pick`.  Raises `ValueError` on an empty array (from `a.max()`)
and on an empty tie list (from `np.random.choice`), which happens exactly
when some entry is NaN. -/
def argmax_rand (a : List RVal) (pick : ℕ) : Except PyErr ℕ :=
  match listMax a with
  | none => .error .valueError
  | some m =>
    match (List.range a.length).filter (fun i => RVal.beq (a.getD i .nan) m) with
    | [] => .error .valueError
    | t :: ts => .ok ((t :: ts).getD (pick % (ts.length + 1)) t)

/-- The instance state of class `UCB`:  `Q` is the score array, `Q_mu` the
running means, `arm_at_t` the round → 0-indexed-arm history dict,
`reward_at_t` the reward log, `num_times_arm` the pull-count dict. -/
structure UCBState where
  narms : ℕ
  rho : RVal
  Q0 : RVal
  Q : List RVal
  Q_mu : List RVal
  arm_at_t : List (ℤ × ℤ)
  reward_at_t : List RVal
  num_times_arm : List (ℤ × ℤ)
  deriving DecidableEq, Repr

/-- `UCB.__init__`: `Q = np.zeros(narms)`, `Q_mu = np.full(narms, Q0)`,
empty dicts and log.  (Note the source initialises the score array to zeros,
not to `Q0`.) -/
def ucbInit (narms : ℕ) (rho Q0 : RVal) : UCBState :=
  { narms := narms
    rho := rho
    Q0 := Q0
    Q := List.replicate narms (.fin 0)
    Q_mu := List.replicate narms Q0
    arm_at_t := []
    reward_at_t := []
    num_times_arm := [] }

/-- The tail of `UCB.play` after the round-re-issue bookkeeping: argmax
selection, recording `arm_at_t[tround]`, and the `setdefault`-based pull-count
increment; returns the 1-indexed arm. -/
def playSelect (s : UCBState) (tround : ℤ) (pick : ℕ) :
    Except PyErr ℤ × UCBState :=
  match argmax_rand s.Q pick with
  | .error e => (.error e, s)
  | .ok i =>
    let s1 := { s with arm_at_t := dset s.arm_at_t tround (i : ℤ) }
    let c1 : ℤ := ((dget s1.num_times_arm (i : ℤ)).getD 0) + 1
    let s2 := { s1 with num_times_arm := dset s1.num_times_arm (i : ℤ) c1 }
    (.ok ((i : ℤ) + 1), s2)

/-- `UCB.play`: if `tround` is already in `arm_at_t`, first decrement the
pull count of the arm previously recorded for that round (a missing count key
raises `KeyError` before any mutation), then select. -/
def ucbPlay (s : UCBState) (tround : ℤ) (pick : ℕ) :
    Except PyErr ℤ × UCBState :=
  match dget s.arm_at_t tround with
  | some prev =>
    match dget s.num_times_arm prev with
    | none => (.error .keyError, s)
    | some c =>
      playSelect
        { s with num_times_arm := dset s.num_times_arm prev (c - 1) }
        tround pick
  | none => playSelect s tround pick

/-- The score-recompute loop of `UCB.update`:
`for a in num_times_arm.keys(): if num_times_arm[a] > 0: Q[a] = sqrt(rho *
log10(len(arm_at_t)+1) / num_times_arm[a]) + Q_mu[a]`.
On an `IndexError` the partially rewritten score array is kept, as in
Python. -/
def scoreLoop (fl fs : ℚ → ℚ) (rho : RVal) (tp : ℕ) (Qmu : List RVal) :
    List (ℤ × ℤ) → List RVal → Option PyErr × List RVal
  | [], Q => (none, Q)
  | (k, c) :: rest, Q =>
    if 0 < c then
      match npGet Qmu k with
      | none => (some .indexError, Q)
      | some mu =>
        scoreLoop fl fs rho tp Qmu rest
          (npSet Q k
            (RVal.add (npSqrt fs (RVal.div (RVal.mul rho (npLog10 fl tp))
              (intToR c))) mu))
    else scoreLoop fl fs rho tp Qmu rest Q

/-- `UCB.update`: decrement `arm`, append `reward` to the log, rewrite the
running mean `Q_mu[arm] = (Q_mu[arm]*(num_times_arm[arm]-1) + reward) /
num_times_arm[arm]`, then run the score-recompute loop.  The reward append
happens before the array read (`IndexError` for an index outside wrap-around
range) and the dict read (`KeyError` for a never-counted arm), so a failing
call has already grown the reward log. -/
def ucbUpdate (fl fs : ℚ → ℚ) (s : UCBState) (arm : ℤ) (reward : RVal) :
    Option PyErr × UCBState :=
  let a := arm - 1
  let s1 := { s with reward_at_t := s.reward_at_t ++ [reward] }
  match npGet s1.Q_mu a with
  | none => (some .indexError, s1)
  | some qmu =>
    match dget s1.num_times_arm a with
    | none => (some .keyError, s1)
    | some n =>
      let newmu := RVal.div (RVal.add (RVal.mul qmu (intToR (n - 1))) reward)
        (intToR n)
      let s2 := { s1 with Q_mu := npSet s1.Q_mu a newmu }
      let res := scoreLoop fl fs s2.rho (s2.arm_at_t.length + 1) s2.Q_mu
        s2.num_times_arm s2.Q
      (res.1, { s2 with Q := res.2 })

/-- Total pull count: the sum of the values of `num_times_arm`. -/
def sumVals (d : List (ℤ × ℤ)) : ℤ := (d.map Prod.snd).sum

/-- Whether a `play` call returned an arm (`true`) or raised (`false`). -/
def isOkB : Except PyErr ℤ → Bool
  | .ok _ => true
  | .error _ => false

/-- The running-mean recurrence of `UCB.update`, iterated over a reward
sequence starting from mean `m` and pull count `k`. -/
def foldMean (m : ℚ) (k : ℕ) : List ℚ → ℚ
  | [] => m
  | r :: rs => foldMean ((m * k + r) / (k + 1)) (k + 1) rs

/-- `PairsOn fl fs A s rs s'`: from state `s`, a sequence of `play`/`update`
pairs on fresh round numbers, in each of which `play` returned the 1-indexed
arm `A` and the matching `update` for `A` succeeded with the corresponding
reward from `rs`, ends in state `s'`. -/
inductive PairsOn (fl fs : ℚ → ℚ) (A : ℤ) : UCBState → List ℚ → UCBState → Prop where
  | nil (s : UCBState) : PairsOn fl fs A s [] s
  | cons (s s1 s2 s' : UCBState) (t : ℤ) (p : ℕ) (r : ℚ) (rs : List ℚ)
      (hfresh : dget s.arm_at_t t = none)
      (hplay : ucbPlay s t p = (.ok A, s1))
      (hupd : ucbUpdate fl fs s1 A (.fin r) = (none, s2))
      (hrest : PairsOn fl fs A s2 rs s') : PairsOn fl fs A s (r :: rs) s'

/-- States reachable from a freshly constructed selector by successfully
completed `play` and `update` calls, in any interleaving. -/
inductive Reachable : UCBState → Prop where
  | init (narms : ℕ) (rho Q0 : RVal) : Reachable (ucbInit narms rho Q0)
  | playStep (s : UCBState) (t : ℤ) (p : ℕ) (A : ℤ) (s' : UCBState) :
      Reachable s → ucbPlay s t p = (.ok A, s') → Reachable s'
  | updateStep (fl fs : ℚ → ℚ) (s : UCBState) (arm : ℤ) (r : RVal)
      (s' : UCBState) :
      Reachable s → ucbUpdate fl fs s arm r = (none, s') → Reachable s'

/-- Well-formedness of the pull-count dict: every key is a valid 0-based
index into the mean array.  Every state reachable from `ucbInit` satisfies
this (keys are only ever created from `argmax_rand` indices into `Q`). -/
def WFcounts (s : UCBState) : Prop :=
  ∀ k c, (k, c) ∈ s.num_times_arm → 0 ≤ k ∧ k < (s.Q_mu.length : ℤ)

section Lemmas

/-! ## Helper lemmas about the embedded primitives -/

theorem RVal.add_nan_right (x : RVal) : RVal.add x .nan = .nan := by
  cases x <;> rfl

theorem RVal.add_nan_left (x : RVal) : RVal.add .nan x = .nan := by
  cases x <;> rfl

theorem RVal.div_nan_left (x : RVal) : RVal.div .nan x = .nan := by
  cases x <;> rfl

theorem RVal.beq_nan_right (x : RVal) : RVal.beq x .nan = false := by
  cases x <;> rfl

theorem RVal.fmax_nan_left (x : RVal) : RVal.fmax .nan x = .nan := by
  cases x <;> rfl

theorem RVal.eq_of_beq {x y : RVal} (h : RVal.beq x y = true) : x = y := by
  cases x <;> cases y <;> simp_all [RVal.beq]

theorem dget_dset_self {α : Type} (d : List (ℤ × α)) (k : ℤ) (v : α) :
    dget (dset d k v) k = some v := by
  induction d with
  | nil => simp [dset, dget]
  | cons hd tl ih =>
    obtain ⟨k', w⟩ := hd
    by_cases h : k' = k
    · subst h; simp [dset, dget]
    · simp [dset, dget, h, ih]

theorem dget_dset_ne {α : Type} (d : List (ℤ × α)) (k k' : ℤ) (v : α)
    (h : k ≠ k') : dget (dset d k v) k' = dget d k' := by
  induction d with
  | nil => simp [dset, dget, h]
  | cons hd tl ih =>
    obtain ⟨k0, w⟩ := hd
    by_cases h0 : k0 = k
    · subst h0; simp [dset, dget, h]
    · simp [dset, dget, h0, ih]

theorem length_dset_some {α : Type} {d : List (ℤ × α)} {k : ℤ} {w : α}
    (v : α) (h : dget d k = some w) : (dset d k v).length = d.length := by
  induction d with
  | nil => simp [dget] at h
  | cons hd tl ih =>
    obtain ⟨k0, w0⟩ := hd
    by_cases h0 : k0 = k
    · subst h0; simp [dset]
    · simp [dget, h0] at h
      simp [dset, h0, ih h]

theorem length_dset_none {α : Type} {d : List (ℤ × α)} {k : ℤ}
    (v : α) (h : dget d k = none) : (dset d k v).length = d.length + 1 := by
  induction d with
  | nil => simp [dset]
  | cons hd tl ih =>
    obtain ⟨k0, w0⟩ := hd
    by_cases h0 : k0 = k
    · subst h0; simp [dget] at h
    · simp [dget, h0] at h
      simp [dset, h0, ih h]

theorem sumVals_dset (d : List (ℤ × ℤ)) (k : ℤ) (v : ℤ) :
    sumVals (dset d k v) = sumVals d + v - (dget d k).getD 0 := by
  induction d with
  | nil => simp [dset, dget, sumVals]
  | cons hd tl ih =>
    obtain ⟨k0, w0⟩ := hd
    by_cases h0 : k0 = k
    · subst h0; simp [dset, dget, sumVals]; ring
    · simp [dset, dget, h0, sumVals] at *
      omega

theorem npIdx_lt {len : ℕ} {i : ℤ} {j : ℕ} (h : npIdx len i = some j) :
    j < len := by
  unfold npIdx at h
  split at h
  · next h1 => simp at h; omega
  · split at h
    · next h2 => simp at h; omega
    · simp at h

theorem length_npSet (xs : List RVal) (i : ℤ) (v : RVal) :
    (npSet xs i v).length = xs.length := by
  unfold npSet
  split
  · simp
  · rfl

theorem get?_set_self {α : Type} (xs : List α) (j : ℕ) (v : α)
    (h : j < xs.length) : (xs.set j v).get? j = some v := by
  induction xs generalizing j with
  | nil => simp at h
  | cons x tl ih =>
    cases j with
    | zero => simp
    | succ j' => simpa using ih j' (by simpa using h)

theorem npGet_npSet_self {xs : List RVal} {i : ℤ} {w : RVal} (v : RVal)
    (h : npGet xs i = some w) : npGet (npSet xs i v) i = some v := by
  unfold npGet at h ⊢
  rw [length_npSet]
  cases hidx : npIdx xs.length i with
  | none => rw [hidx] at h; simp at h
  | some j =>
    simp only [Option.some_bind] at h ⊢
    unfold npSet
    rw [hidx]
    exact get?_set_self xs j v (npIdx_lt hidx)

theorem get?_some_of_lt {α : Type} (xs : List α) (j : ℕ) (h : j < xs.length) :
    ∃ w, xs.get? j = some w := by
  induction xs generalizing j with
  | nil => simp at h
  | cons x tl ih =>
    cases j with
    | zero => exact ⟨x, rfl⟩
    | succ j' => simpa using ih j' (by simpa using h)

theorem npGet_some_of_range (xs : List RVal) (i : ℤ) (h0 : 0 ≤ i)
    (h1 : i < (xs.length : ℤ)) : ∃ w, npGet xs i = some w := by
  unfold npGet npIdx
  rw [if_pos ⟨h0, h1⟩]
  simpa using get?_some_of_lt xs i.toNat (by omega)

theorem npGet_none_of_big (xs : List RVal) (i : ℤ)
    (h1 : (xs.length : ℤ) ≤ i) : npGet xs i = none := by
  unfold npGet npIdx
  rw [if_neg (by omega), if_neg (by omega)]
  rfl

theorem dget_mem {α : Type} {d : List (ℤ × α)} {k : ℤ} {v : α}
    (h : dget d k = some v) : (k, v) ∈ d := by
  induction d with
  | nil => simp [dget] at h
  | cons hd tl ih =>
    obtain ⟨k0, w0⟩ := hd
    by_cases h0 : k0 = k
    · subst h0
      simp [dget] at h
      simp [h]
    · simp [dget, h0] at h
      simp [ih h]

theorem npGet_none_of_small (xs : List RVal) (i : ℤ)
    (h1 : i < -(xs.length : ℤ)) : npGet xs i = none := by
  unfold npGet npIdx
  rw [if_neg (by omega), if_neg (by omega)]
  rfl

/-! ### Evaluation lemmas for `ucbUpdate` and `ucbPlay` -/

theorem ucbUpdate_np_none (fl fs : ℚ → ℚ) (s : UCBState) (arm : ℤ)
    (r : RVal) (h : npGet s.Q_mu (arm - 1) = none) :
    ucbUpdate fl fs s arm r
      = (some .indexError, { s with reward_at_t := s.reward_at_t ++ [r] }) := by
  simp only [ucbUpdate, h]

theorem ucbUpdate_dget_none (fl fs : ℚ → ℚ) (s : UCBState) (arm : ℤ)
    (r : RVal) (qmu : RVal) (hq : npGet s.Q_mu (arm - 1) = some qmu)
    (h : dget s.num_times_arm (arm - 1) = none) :
    ucbUpdate fl fs s arm r
      = (some .keyError, { s with reward_at_t := s.reward_at_t ++ [r] }) := by
  simp only [ucbUpdate, hq, h]

theorem ucbUpdate_counted (fl fs : ℚ → ℚ) (s : UCBState) (arm : ℤ)
    (r : RVal) (qmu : RVal) (n : ℤ) (hq : npGet s.Q_mu (arm - 1) = some qmu)
    (h : dget s.num_times_arm (arm - 1) = some n) :
    ucbUpdate fl fs s arm r
      = ((scoreLoop fl fs s.rho (s.arm_at_t.length + 1)
            (npSet s.Q_mu (arm - 1)
              (RVal.div (RVal.add (RVal.mul qmu (intToR (n - 1))) r)
                (intToR n)))
            s.num_times_arm s.Q).1,
         { s with reward_at_t := s.reward_at_t ++ [r],
                  Q_mu := npSet s.Q_mu (arm - 1)
                    (RVal.div (RVal.add (RVal.mul qmu (intToR (n - 1))) r)
                      (intToR n)),
                  Q := (scoreLoop fl fs s.rho (s.arm_at_t.length + 1)
                    (npSet s.Q_mu (arm - 1)
                      (RVal.div (RVal.add (RVal.mul qmu (intToR (n - 1))) r)
                        (intToR n)))
                    s.num_times_arm s.Q).2 }) := by
  simp only [ucbUpdate, hq, h]

theorem ucbPlay_fresh (s : UCBState) (tround : ℤ) (pick : ℕ)
    (h : dget s.arm_at_t tround = none) :
    ucbPlay s tround pick = playSelect s tround pick := by
  simp only [ucbPlay, h]

theorem ucbPlay_repeat (s : UCBState) (tround : ℤ) (pick : ℕ) (prev c : ℤ)
    (h : dget s.arm_at_t tround = some prev)
    (hc : dget s.num_times_arm prev = some c) :
    ucbPlay s tround pick
      = playSelect { s with num_times_arm := dset s.num_times_arm prev (c - 1) }
          tround pick := by
  simp only [ucbPlay, h, hc]

theorem ucbPlay_repeat_missing (s : UCBState) (tround : ℤ) (pick : ℕ)
    (prev : ℤ) (h : dget s.arm_at_t tround = some prev)
    (hc : dget s.num_times_arm prev = none) :
    ucbPlay s tround pick = (.error .keyError, s) := by
  simp only [ucbPlay, h, hc]

theorem playSelect_err (s : UCBState) (tround : ℤ) (pick : ℕ) (e : PyErr)
    (h : argmax_rand s.Q pick = .error e) :
    playSelect s tround pick = (.error e, s) := by
  simp only [playSelect, h]

theorem playSelect_ok (s : UCBState) (tround : ℤ) (pick : ℕ) (i : ℕ)
    (h : argmax_rand s.Q pick = .ok i) :
    playSelect s tround pick
      = (.ok ((i : ℤ) + 1),
         { s with arm_at_t := dset s.arm_at_t tround (i : ℤ),
                  num_times_arm := dset s.num_times_arm (i : ℤ)
                    (((dget s.num_times_arm (i : ℤ)).getD 0) + 1) }) := by
  simp only [playSelect, h]

/-- `update` never touches `num_times_arm` or `arm_at_t`, and always appends
exactly the new reward to the log, on every control path. -/
theorem ucbUpdate_frame (fl fs : ℚ → ℚ) (s : UCBState) (arm : ℤ)
    (r : RVal) :
    ((ucbUpdate fl fs s arm r).2).num_times_arm = s.num_times_arm ∧
    ((ucbUpdate fl fs s arm r).2).arm_at_t = s.arm_at_t ∧
    ((ucbUpdate fl fs s arm r).2).reward_at_t = s.reward_at_t ++ [r] := by
  simp only [ucbUpdate]
  split
  · exact ⟨rfl, rfl, rfl⟩
  · split
    · exact ⟨rfl, rfl, rfl⟩
    · exact ⟨rfl, rfl, rfl⟩

/-- The score-recompute loop either completes or stops at an `IndexError`;
no other exception can arise from it. -/
theorem scoreLoop_fst (fl fs : ℚ → ℚ) (rho : RVal) (tp : ℕ)
    (Qmu : List RVal) (entries : List (ℤ × ℤ)) (Q : List RVal) :
    (scoreLoop fl fs rho tp Qmu entries Q).1 = none ∨
    (scoreLoop fl fs rho tp Qmu entries Q).1 = some PyErr.indexError := by
  induction entries generalizing Q with
  | nil => left; rfl
  | cons hd tl ih =>
    obtain ⟨k, c⟩ := hd
    by_cases hc : 0 < c
    · cases hnp : npGet Qmu k with
      | none => right; simp [scoreLoop, hc, hnp]
      | some mu => simpa [scoreLoop, hc, hnp] using ih _
    · simpa [scoreLoop, hc] using ih Q

/-- The score-recompute loop completes when every counted key is a valid
0-based index into the (equal-length) statistics arrays. -/
theorem scoreLoop_ok (fl fs : ℚ → ℚ) (rho : RVal) (tp : ℕ)
    (Qmu : List RVal) (entries : List (ℤ × ℤ)) (Q : List RVal)
    (hk : ∀ k c, (k, c) ∈ entries → 0 ≤ k ∧ k < (Qmu.length : ℤ)) :
    (scoreLoop fl fs rho tp Qmu entries Q).1 = none := by
  induction entries generalizing Q with
  | nil => rfl
  | cons hd tl ih =>
    obtain ⟨k, c⟩ := hd
    have hk0 := hk k c (by simp)
    by_cases hc : 0 < c
    · obtain ⟨w, hw⟩ := npGet_some_of_range Qmu k hk0.1 hk0.2
      simpa [scoreLoop, hc, hw] using
        ih _ (fun k' c' hm => hk k' c' (by simp [hm]))
    · simpa [scoreLoop, hc] using ih Q (fun k' c' hm => hk k' c' (by simp [hm]))

end Lemmas

/-! ## Claims -/

/-- C2 (code bug): the specification and the class docstring describe `Q0` as
the initial value of the arms' scores, but `UCB.__init__` runs
`self.Q = np.zeros(narms)`: at `narms = 1, rho = 1, Q0 = 5` the freshly
constructed selector has `score[0] = 0`, not `Q0 = 5` (only `meanReward`
receives `Q0`; the pull counts are empty as claimed). -/
theorem C2_init_scores_zero :
    (ucbInit 1 (.fin 1) (.fin 5)).Q = [RVal.fin 0] ∧
    (ucbInit 1 (.fin 1) (.fin 5)).Q ≠ [RVal.fin 5] ∧
    (ucbInit 1 (.fin 1) (.fin 5)).Q_mu = [RVal.fin 5] ∧
    (ucbInit 1 (.fin 1) (.fin 5)).num_times_arm = [] := by
  refine ⟨rfl, ?_, rfl, rfl⟩
  decide

/-- C1 (code bug): with the default `Q0 = +inf` (and `narms = 2`, `rho = 1`),
the first `play` ties all arms at score `0` (not `+inf`, since `__init__`
zeroes the score array); after its matching `update` the played arm's mean
becomes `inf * 0 = NaN` and its score `NaN`, so the second `play` raises
`ValueError` (empty argmax tie list) instead of returning the still-unpulled
arm — for every outcome of both random tie-breaks and every finite behaviour
of `log10`/`sqrt`. -/
theorem C1_default_Q0_breaks_unpulled_priority (fl fs : ℚ → ℚ) (p1 p2 : ℕ) :
    ∃ (A : ℤ) (s1 s2 : UCBState),
      ucbPlay (ucbInit 2 (.fin 1) .inf) 1 p1 = (.ok A, s1) ∧
      ucbUpdate fl fs s1 A (.fin 1) = (none, s2) ∧
      (ucbPlay s2 2 p2).1 = .error PyErr.valueError := by
  have ha : argmax_rand (ucbInit 2 (.fin 1) .inf).Q p1
      = .ok ([0, 1].getD (p1 % 2) 0) := rfl
  rcases Nat.mod_two_eq_zero_or_one p1 with h | h
  · rw [h] at ha
    refine ⟨1, ⟨2, .fin 1, .inf, [.fin 0, .fin 0], [.inf, .inf],
      [(1, 0)], [], [(0, 1)]⟩, ⟨2, .fin 1, .inf, [.nan, .fin 0],
      [.nan, .inf], [(1, 0)], [.fin 1], [(0, 1)]⟩, ?_, ?_, rfl⟩
    · simp only [ucbPlay, playSelect, ha]
      rfl
    · simp only [ucbUpdate, scoreLoop, npGet, npSet, npIdx, dget, intToR,
        RVal.mul, RVal.add_nan_left, RVal.add_nan_right, RVal.div_nan_left]
      norm_num [RVal.add_nan_left, RVal.add_nan_right, RVal.div_nan_left]
  · rw [h] at ha
    refine ⟨2, ⟨2, .fin 1, .inf, [.fin 0, .fin 0], [.inf, .inf],
      [(1, 1)], [], [(1, 1)]⟩, ⟨2, .fin 1, .inf, [.fin 0, .nan],
      [.inf, .nan], [(1, 1)], [.fin 1], [(1, 1)]⟩, ?_, ?_, rfl⟩
    · simp only [ucbPlay, playSelect, ha]
      rfl
    · simp only [ucbUpdate, scoreLoop, npGet, npSet, npIdx, dget, intToR,
        RVal.mul, RVal.add_nan_left, RVal.add_nan_right, RVal.div_nan_left]
      norm_num [RVal.add_nan_left, RVal.add_nan_right, RVal.div_nan_left]

/-- C10: `update` never touches the pull counts or the round → arm selection
history, and appends exactly one entry to the reward log — on every call, in
particular on every in-range arm satisfying the play-before-update
precondition. -/
theorem C10_update_frame (fl fs : ℚ → ℚ) (s : UCBState) (arm : ℤ)
    (r : RVal) :
    ((ucbUpdate fl fs s arm r).2).num_times_arm = s.num_times_arm ∧
    ((ucbUpdate fl fs s arm r).2).arm_at_t = s.arm_at_t ∧
    ((ucbUpdate fl fs s arm r).2).reward_at_t = s.reward_at_t ++ [r] :=
  ucbUpdate_frame fl fs s arm r

/-- C6 counterexample: one successful `play` on a fresh selector
(`narms = 1`, finite `Q0`) already sets the summed pull count to `1` while
zero `update` calls have completed (the reward log is still empty), so the
claimed invariant "sum of pullCount = number of completed updates" is false,
and a selected-but-not-yet-updated pull is counted. -/
theorem C6_counterexample :
    (ucbPlay (ucbInit 1 (.fin 1) (.fin 0)) 1 0).1 = .ok 1 ∧
    sumVals ((ucbPlay (ucbInit 1 (.fin 1) (.fin 0)) 1 0).2).num_times_arm
      = 1 ∧
    ((ucbPlay (ucbInit 1 (.fin 1) (.fin 0)) 1 0).2).reward_at_t.length
      = 0 := by
  exact ⟨rfl, rfl, rfl⟩

/-- C7 counterexample: `update(arm = 0)` on a fresh selector (`narms = 1`)
is out of range `[1, 1]`, yet the call raises `KeyError` (from the
`num_times_arm[-1]` lookup), not `InvalidArgument` — the source performs no
argument validation — so "raises InvalidArgument iff arm is outside
`[1, narms]`" fails. -/
theorem C7_counterexample :
    ¬(((ucbUpdate (fun _ => 0) (fun _ => 0) (ucbInit 1 (.fin 1) (.fin 0)) 0
        (.fin 1)).1 = some PyErr.invalidArgument) ↔
      ((0 : ℤ) < 1 ∨ (1 : ℤ) < 0)) := by
  decide

/-- C8 counterexample: the failing call `update(arm = 0, reward = 2)` on a
fresh selector (`narms = 1`) raises, yet has already mutated state: the
reward log grew from `[]` to `[2]` before the failing lookup. -/
theorem C8_counterexample :
    ((ucbUpdate (fun _ => 0) (fun _ => 0) (ucbInit 1 (.fin 1) (.fin 3)) 0
      (.fin 2)).1).isSome = true ∧
    ((ucbUpdate (fun _ => 0) (fun _ => 0) (ucbInit 1 (.fin 1) (.fin 3)) 0
      (.fin 2)).2).reward_at_t
      ≠ (ucbInit 1 (.fin 1) (.fin 3)).reward_at_t := by
  refine ⟨rfl, ?_⟩
  decide

/-- C7 (amended): `update` performs no argument validation and never raises
`InvalidArgument`.  On a well-formed state (count keys are valid indices,
statistics arrays of length `narms`): an arm outside `[1, narms]` makes the
call fail with `IndexError` (index outside NumPy wrap-around range) or
`KeyError` (arm never counted); an in-range arm whose 0-based index has a
recorded pull count makes the call complete without error. -/
theorem C7_update_error_taxonomy (fl fs : ℚ → ℚ) :
    (∀ (s : UCBState) (arm : ℤ) (r : RVal),
      (ucbUpdate fl fs s arm r).1 ≠ some PyErr.invalidArgument) ∧
    (∀ (s : UCBState) (arm : ℤ) (r : RVal), WFcounts s →
      s.Q_mu.length = s.narms → (arm < 1 ∨ (s.narms : ℤ) < arm) →
      (ucbUpdate fl fs s arm r).1 = some PyErr.indexError ∨
      (ucbUpdate fl fs s arm r).1 = some PyErr.keyError) ∧
    (∀ (s : UCBState) (arm : ℤ) (r : RVal) (c : ℤ), WFcounts s →
      1 ≤ arm → arm ≤ (s.Q_mu.length : ℤ) →
      dget s.num_times_arm (arm - 1) = some c →
      (ucbUpdate fl fs s arm r).1 = none) := by
  refine ⟨?_, ?_, ?_⟩
  · intro s arm r
    cases hq : npGet s.Q_mu (arm - 1) with
    | none => rw [ucbUpdate_np_none fl fs s arm r hq]; simp
    | some qmu =>
      cases hd : dget s.num_times_arm (arm - 1) with
      | none => rw [ucbUpdate_dget_none fl fs s arm r qmu hq hd]; simp
      | some n =>
        rw [ucbUpdate_counted fl fs s arm r qmu n hq hd]
        rcases scoreLoop_fst fl fs s.rho (s.arm_at_t.length + 1)
          (npSet s.Q_mu (arm - 1)
            (RVal.div (RVal.add (RVal.mul qmu (intToR (n - 1))) r)
              (intToR n))) s.num_times_arm s.Q with h | h <;> simp [h]
  · intro s arm r hwf hlen hrange
    rcases hrange with h | h
    · by_cases hsm : arm - 1 < -(s.Q_mu.length : ℤ)
      · left
        rw [ucbUpdate_np_none fl fs s arm r (npGet_none_of_small _ _ hsm)]
      · right
        obtain ⟨w, hw⟩ : ∃ w, npGet s.Q_mu (arm - 1) = some w := by
          unfold npGet npIdx
          rw [if_neg (by omega), if_pos ⟨by omega, by omega⟩]
          simpa using get?_some_of_lt s.Q_mu (arm - 1 + s.Q_mu.length).toNat
            (by omega)
        have hd : dget s.num_times_arm (arm - 1) = none := by
          cases hdd : dget s.num_times_arm (arm - 1) with
          | none => rfl
          | some c =>
            exact absurd ((hwf _ _ (dget_mem hdd)).1) (by omega)
        rw [ucbUpdate_dget_none fl fs s arm r w hw hd]
    · left
      rw [ucbUpdate_np_none fl fs s arm r (npGet_none_of_big _ _ (by omega))]
  · intro s arm r c hwf h1 h2 hd
    obtain ⟨qmu, hq⟩ := npGet_some_of_range s.Q_mu (arm - 1) (by omega)
      (by omega)
    rw [ucbUpdate_counted fl fs s arm r qmu c hq hd]
    exact scoreLoop_ok fl fs s.rho (s.arm_at_t.length + 1) _ s.num_times_arm
      s.Q (fun k cc hm =>
        ⟨(hwf k cc hm).1, by rw [length_npSet]; exact (hwf k cc hm).2⟩)

/-- Witness for C7: on a concrete one-arm state with one recorded pull,
`update(1, 2)` succeeds; on a fresh one-arm selector, `update(2, 1)` (out of
range) fails with `IndexError` or `KeyError`. -/
theorem C7_update_error_taxonomy_witness :
    ((ucbUpdate (fun _ => 0) (fun _ => 0)
      (⟨1, .fin 1, .fin 0, [.fin 0], [.fin 0], [(1, 0)], [], [(0, 1)]⟩ :
        UCBState) 1 (.fin 2)).1 = none) ∧
    ((ucbUpdate (fun _ => 0) (fun _ => 0) (ucbInit 1 (.fin 1) (.fin 0)) 2
        (.fin 1)).1 = some PyErr.indexError ∨
     (ucbUpdate (fun _ => 0) (fun _ => 0) (ucbInit 1 (.fin 1) (.fin 0)) 2
        (.fin 1)).1 = some PyErr.keyError) := by
  constructor
  · exact (C7_update_error_taxonomy (fun _ => 0) (fun _ => 0)).2.2
      (⟨1, .fin 1, .fin 0, [.fin 0], [.fin 0], [(1, 0)], [], [(0, 1)]⟩ :
        UCBState) 1 (.fin 2) 1
      (by intro k c h; simp at h; simp; omega) (by norm_num) (by norm_num)
      rfl
  · exact (C7_update_error_taxonomy (fun _ => 0) (fun _ => 0)).2.1
      (ucbInit 1 (.fin 1) (.fin 0)) 2 (.fin 1)
      (by intro k c h; simp [ucbInit] at h) rfl
      (by right; norm_num [ucbInit])

/-- C8 (amended): a failing `update` call is not atomic — it has already
appended the reward to the reward log before raising; all other fields
(scores, means, pull counts, selection history) are left unchanged.  (On a
well-formed state the only failure points are the two lookups, both of which
happen after the reward append and before any other mutation.) -/
theorem C8_failed_update_appended_reward (fl fs : ℚ → ℚ) (s : UCBState)
    (arm : ℤ) (r : RVal) (e : PyErr) (hwf : WFcounts s)
    (hfail : (ucbUpdate fl fs s arm r).1 = some e) :
    (ucbUpdate fl fs s arm r).2
      = { s with reward_at_t := s.reward_at_t ++ [r] } := by
  cases hq : npGet s.Q_mu (arm - 1) with
  | none => rw [ucbUpdate_np_none fl fs s arm r hq]
  | some qmu =>
    cases hd : dget s.num_times_arm (arm - 1) with
    | none => rw [ucbUpdate_dget_none fl fs s arm r qmu hq hd]
    | some n =>
      exfalso
      have hok : (ucbUpdate fl fs s arm r).1 = none := by
        rw [ucbUpdate_counted fl fs s arm r qmu n hq hd]
        exact scoreLoop_ok fl fs s.rho (s.arm_at_t.length + 1) _
          s.num_times_arm s.Q (fun k cc hm =>
            ⟨(hwf k cc hm).1, by rw [length_npSet]; exact (hwf k cc hm).2⟩)
      rw [hok] at hfail
      exact Option.noConfusion hfail

/-- Witness for C8: the failing `update(0, 2)` on a fresh one-arm selector
leaves everything unchanged except the reward log, which grew by one. -/
theorem C8_failed_update_appended_reward_witness :
    (ucbUpdate (fun _ => 0) (fun _ => 0) (ucbInit 1 (.fin 1) (.fin 3)) 0
      (.fin 2)).2
      = { ucbInit 1 (.fin 1) (.fin 3) with
          reward_at_t := (ucbInit 1 (.fin 1) (.fin 3)).reward_at_t
            ++ [.fin 2] } :=
  C8_failed_update_appended_reward (fun _ => 0) (fun _ => 0)
    (ucbInit 1 (.fin 1) (.fin 3)) 0 (.fin 2) PyErr.keyError
    (by intro k c h; simp [ucbInit] at h) rfl

/-- C9 counterexample: on a fresh selector with `narms = 2` and finite `Q0`
both arms tie at score `0`, and the two possible outcomes of the random
tie-break in the same `play(round = 1)` call on the same state return
different arms — `play` is not deterministic given its inputs and state. -/
theorem C9_counterexample :
    (ucbPlay (ucbInit 2 (.fin 1) (.fin 0)) 1 0).1 = .ok 1 ∧
    (ucbPlay (ucbInit 2 (.fin 1) (.fin 0)) 1 1).1 = .ok 2 ∧
    (1 : ℤ) ≠ 2 := ⟨rfl, rfl, by decide⟩

/-- C3 counterexample: in the state reached from a fresh default selector
(`narms = 2`, `Q0 = +inf`) by one `play`/`update` round, the played arm's
score is NaN, and the next `play` call raises `ValueError` instead of
returning an arm — so "every call to play returns exactly one arm" fails on
a reachable state. -/
theorem C3_counterexample :
    (ucbPlay ((ucbUpdate (fun _ => 0) (fun _ => 0)
      ((ucbPlay (ucbInit 2 (.fin 1) .inf) 1 0).2) 1 (.fin 1)).2) 2 0).1
      = .error PyErr.valueError := by
  have h1 : (ucbPlay (ucbInit 2 (.fin 1) .inf) 1 0).2
      = ⟨2, .fin 1, .inf, [.fin 0, .fin 0], [.inf, .inf], [(1, 0)], [],
        [(0, 1)]⟩ := rfl
  rw [h1]
  have h2 : (ucbUpdate (fun _ => 0) (fun _ => 0)
      (⟨2, .fin 1, .inf, [.fin 0, .fin 0], [.inf, .inf], [(1, 0)], [],
        [(0, 1)]⟩ : UCBState) 1 (.fin 1)).2
      = ⟨2, .fin 1, .inf, [.nan, .fin 0], [.nan, .inf], [(1, 0)], [.fin 1],
        [(0, 1)]⟩ := by
    simp only [ucbUpdate, scoreLoop, npGet, npSet, npIdx, dget, intToR,
      RVal.mul, RVal.add_nan_left, RVal.add_nan_right, RVal.div_nan_left]
    norm_num [RVal.add_nan_left, RVal.add_nan_right, RVal.div_nan_left]
  rw [h2]
  rfl

/-- C4 counterexample: a single `play`/`update` pair on arm `1` with reward
`1` from a fresh selector with the default `Q0 = +inf` (`narms = 1`,
`rho = 1`) is a `PairsOn` trace, yet the arm's mean afterwards is
`(inf * 0 + 1) / 1 = NaN`, not the arithmetic mean `1` — the claim fails for
`Q0 = +inf`. -/
theorem C4_counterexample :
    PairsOn (fun _ => 0) (fun _ => 0) 1 (ucbInit 1 (.fin 1) .inf) [1]
      ((ucbUpdate (fun _ => 0) (fun _ => 0)
        ((ucbPlay (ucbInit 1 (.fin 1) .inf) 1 0).2) 1 (.fin 1)).2) ∧
    npGet ((ucbUpdate (fun _ => 0) (fun _ => 0)
      ((ucbPlay (ucbInit 1 (.fin 1) .inf) 1 0).2) 1 (.fin 1)).2).Q_mu 0
      = some RVal.nan ∧ RVal.nan ≠ RVal.fin 1 := by
  refine ⟨PairsOn.cons _ _ _ _ 1 0 1 [] rfl rfl rfl (PairsOn.nil _), rfl,
    by decide⟩

/-- C6 (amended): in every interleaving of successfully completed `play` and
`update` calls, the sum of `num_times_arm` over all arms equals the number of
rounds currently recorded in the selection history `arm_at_t` — not the
number of completed updates: the count is taken at `play` time and includes a
pull that has been selected but not yet updated. -/
theorem C6_pullcount_equals_rounds (s : UCBState) (h : Reachable s) :
    sumVals s.num_times_arm = (s.arm_at_t.length : ℤ) := by
  induction h with
  | init narms rho Q0 => rfl
  | playStep s t p A s' hs hplay ih =>
    cases hprev : dget s.arm_at_t t with
    | none =>
      rw [ucbPlay_fresh s t p hprev] at hplay
      cases hargmax : argmax_rand s.Q p with
      | error e =>
        rw [playSelect_err s t p e hargmax] at hplay
        simp at hplay
      | ok i =>
        rw [playSelect_ok s t p i hargmax] at hplay
        simp only [Prod.mk.injEq] at hplay
        obtain ⟨hA, hs'⟩ := hplay
        rw [← hs']
        simp only
        rw [sumVals_dset, length_dset_none _ hprev]
        push_cast
        omega
    | some prev =>
      cases hc : dget s.num_times_arm prev with
      | none =>
        rw [ucbPlay_repeat_missing s t p prev hprev hc] at hplay
        simp at hplay
      | some c =>
        rw [ucbPlay_repeat s t p prev c hprev hc] at hplay
        cases hargmax : argmax_rand s.Q p with
        | error e =>
          rw [playSelect_err
            { s with num_times_arm := dset s.num_times_arm prev (c - 1) }
            t p e hargmax] at hplay
          simp at hplay
        | ok i =>
          rw [playSelect_ok
            { s with num_times_arm := dset s.num_times_arm prev (c - 1) }
            t p i hargmax] at hplay
          simp only [Prod.mk.injEq] at hplay
          obtain ⟨hA, hs'⟩ := hplay
          rw [← hs']
          simp only
          rw [sumVals_dset, sumVals_dset, length_dset_some _ hprev, hc]
          simp only [Option.getD_some]
          omega
  | updateStep fl fs s arm r s' hs hupd ih =>
    have hs' : s' = (ucbUpdate fl fs s arm r).2 := by rw [hupd]
    rw [hs', (ucbUpdate_frame fl fs s arm r).1,
      (ucbUpdate_frame fl fs s arm r).2.1]
    exact ih

/-- Witness for C6: the invariant holds in the reachable state after one
successful `play` on a fresh one-arm selector (sum of counts and history
size are both `1`). -/
theorem C6_pullcount_equals_rounds_witness :
    sumVals ((ucbPlay (ucbInit 1 (.fin 1) (.fin 0)) 1 0).2).num_times_arm
      = ((((ucbPlay (ucbInit 1 (.fin 1) (.fin 0)) 1 0).2).arm_at_t.length :
          ℤ)) :=
  C6_pullcount_equals_rounds _
    (Reachable.playStep (ucbInit 1 (.fin 1) (.fin 0)) 1 0 1 _
      (Reachable.init 1 (.fin 1) (.fin 0)) rfl)

/-- C5: on a `play` call whose round number is already recorded, the pull
count of the previously recorded arm is decremented before the new arm is
selected, counted and recorded; the summed pull count is unchanged by the
replay, and a subsequent `update` (which never touches pull counts) keeps
it unchanged — the totals are as if the round had been played once. -/
theorem C5_round_reissue (s : UCBState) (tround : ℤ) (pick : ℕ)
    (prev c A : ℤ) (s' : UCBState)
    (hprev : dget s.arm_at_t tround = some prev)
    (hc : dget s.num_times_arm prev = some c)
    (hok : ucbPlay s tround pick = (.ok A, s')) :
    (∃ i : ℕ, (i : ℤ) = A - 1 ∧
      s'.num_times_arm
        = dset (dset s.num_times_arm prev (c - 1)) (i : ℤ)
            (((dget (dset s.num_times_arm prev (c - 1)) (i : ℤ)).getD 0)
              + 1) ∧
      s'.arm_at_t = dset s.arm_at_t tround (i : ℤ)) ∧
    sumVals s'.num_times_arm = sumVals s.num_times_arm ∧
    (∀ (fl fs : ℚ → ℚ) (arm2 : ℤ) (r : RVal),
      ((ucbUpdate fl fs s' arm2 r).2).num_times_arm = s'.num_times_arm) := by
  rw [ucbPlay_repeat s tround pick prev c hprev hc] at hok
  cases hargmax : argmax_rand s.Q pick with
  | error e =>
    rw [playSelect_err
      { s with num_times_arm := dset s.num_times_arm prev (c - 1) }
      tround pick e hargmax] at hok
    simp at hok
  | ok i =>
    rw [playSelect_ok
      { s with num_times_arm := dset s.num_times_arm prev (c - 1) }
      tround pick i hargmax] at hok
    simp only [Prod.mk.injEq, Except.ok.injEq] at hok
    obtain ⟨hA, hs'⟩ := hok
    refine ⟨⟨i, by omega, ?_, ?_⟩, ?_, ?_⟩
    · rw [← hs']
    · rw [← hs']
    · rw [← hs']
      simp only
      rw [sumVals_dset, sumVals_dset, hc]
      simp only [Option.getD_some]
      omega
    · intro fl fs arm2 r
      exact (ucbUpdate_frame fl fs s' arm2 r).1

/-- Witness for C5: replaying round `1` on a concrete one-arm state that
already recorded round `1` for arm index `0` preserves the summed pull
count. -/
theorem C5_round_reissue_witness :
    (∃ i : ℕ, (i : ℤ) = (1 : ℤ) - 1 ∧
      ((ucbPlay (⟨1, .fin 1, .fin 0, [.fin 0], [.fin 0], [(1, 0)], [],
          [(0, 1)]⟩ : UCBState) 1 0).2).num_times_arm
        = dset (dset [(0, 1)] 0 (1 - 1)) (i : ℤ)
            (((dget (dset [(0, 1)] 0 (1 - 1)) (i : ℤ)).getD 0) + 1) ∧
      ((ucbPlay (⟨1, .fin 1, .fin 0, [.fin 0], [.fin 0], [(1, 0)], [],
          [(0, 1)]⟩ : UCBState) 1 0).2).arm_at_t
        = dset [(1, 0)] 1 (i : ℤ)) ∧
    sumVals ((ucbPlay (⟨1, .fin 1, .fin 0, [.fin 0], [.fin 0], [(1, 0)], [],
        [(0, 1)]⟩ : UCBState) 1 0).2).num_times_arm
      = sumVals [(0, 1)] ∧
    (∀ (fl fs : ℚ → ℚ) (arm2 : ℤ) (r : RVal),
      ((ucbUpdate fl fs ((ucbPlay (⟨1, .fin 1, .fin 0, [.fin 0], [.fin 0],
          [(1, 0)], [], [(0, 1)]⟩ : UCBState) 1 0).2) arm2 r).2).num_times_arm
        = ((ucbPlay (⟨1, .fin 1, .fin 0, [.fin 0], [.fin 0], [(1, 0)], [],
          [(0, 1)]⟩ : UCBState) 1 0).2).num_times_arm) :=
  C5_round_reissue
    (⟨1, .fin 1, .fin 0, [.fin 0], [.fin 0], [(1, 0)], [], [(0, 1)]⟩ :
      UCBState) 1 0 0 1 1 _ rfl rfl rfl

theorem getD_mem_of_lt {α : Type} (l : List α) (n : ℕ) (d : α)
    (h : n < l.length) : l.getD n d ∈ l := by
  induction l generalizing n with
  | nil => simp at h
  | cons x tl ih =>
    cases n with
    | zero => simp
    | succ n' =>
      simp only [List.getD_cons_succ]
      exact List.mem_cons_of_mem x (ih n' (by simpa using h))

theorem getD_eq_lookup {α : Type} (xs : List α) (n : ℕ) (d : α) :
    xs.getD n d = (xs.get? n).getD d := by
  induction xs generalizing n with
  | nil => cases n <;> rfl
  | cons x tl ih =>
    cases n with
    | zero => rfl
    | succ n' => simp only [List.getD_cons_succ, List.get?_cons_succ, ih n']

theorem npGet_intCast (xs : List RVal) (i : ℕ) (h : i < xs.length) :
    npGet xs (i : ℤ) = some (xs.getD i .nan) := by
  unfold npGet npIdx
  rw [if_pos ⟨by omega, by exact_mod_cast h⟩]
  have ht : ((i : ℤ)).toNat = i := by omega
  rw [ht]
  simp only [Option.some_bind]
  obtain ⟨w, hw⟩ := get?_some_of_lt xs i h
  rw [hw, getD_eq_lookup, hw]
  rfl

theorem argmax_none (a : List RVal) (pick : ℕ) (hm : listMax a = none) :
    argmax_rand a pick = .error .valueError := by
  unfold argmax_rand
  rw [hm]

theorem argmax_eval (a : List RVal) (pick : ℕ) (m : RVal)
    (hm : listMax a = some m) :
    argmax_rand a pick =
      match (List.range a.length).filter
          (fun j => RVal.beq (a.getD j .nan) m) with
      | [] => .error .valueError
      | t :: ts => .ok ((t :: ts).getD (pick % (ts.length + 1)) t) := by
  unfold argmax_rand
  rw [hm]

/-- Specification of a successful `argmax_rand` call: the returned index is
in range and its entry equals the array maximum. -/
theorem argmax_ok_spec (a : List RVal) (pick : ℕ) (i : ℕ)
    (h : argmax_rand a pick = .ok i) :
    ∃ m, listMax a = some m ∧ i < a.length ∧ a.getD i .nan = m := by
  cases hm : listMax a with
  | none => rw [argmax_none a pick hm] at h; simp at h
  | some m =>
    rw [argmax_eval a pick m hm] at h
    cases hf : (List.range a.length).filter
        (fun j => RVal.beq (a.getD j .nan) m) with
    | nil => rw [hf] at h; simp at h
    | cons t ts =>
      rw [hf] at h
      have hmem : i ∈ (List.range a.length).filter
          (fun j => RVal.beq (a.getD j .nan) m) := by
        rw [hf]
        have hgd : (t :: ts).getD (pick % (ts.length + 1)) t ∈ t :: ts :=
          getD_mem_of_lt _ _ _ (by
            have := Nat.mod_lt pick (Nat.succ_pos ts.length)
            simpa using this)
        have hi : (t :: ts).getD (pick % (ts.length + 1)) t = i :=
          Except.ok.inj h
        rwa [hi] at hgd
      rw [List.mem_filter] at hmem
      exact ⟨m, rfl, List.mem_range.mp hmem.1,
        RVal.eq_of_beq (by simpa using hmem.2)⟩

/-- Whether `argmax_rand` succeeds does not depend on the random draw: on
the same array, two draws either both return an index or both raise. -/
theorem argmax_ok_or_err (a : List RVal) (p q : ℕ) :
    (∃ ip iq, argmax_rand a p = .ok ip ∧ argmax_rand a q = .ok iq) ∨
    (argmax_rand a p = .error .valueError ∧
     argmax_rand a q = .error .valueError) := by
  cases hm : listMax a with
  | none => exact Or.inr ⟨argmax_none a p hm, argmax_none a q hm⟩
  | some m =>
    rw [argmax_eval a p m hm, argmax_eval a q m hm]
    cases hf : (List.range a.length).filter
        (fun j => RVal.beq (a.getD j .nan) m) with
    | nil => exact Or.inr ⟨rfl, rfl⟩
    | cons t ts => exact Or.inl ⟨_, _, rfl, rfl⟩

theorem playSelect_isOkB_eq (s : UCBState) (t : ℤ) (p q : ℕ) :
    isOkB ((playSelect s t p).1) = isOkB ((playSelect s t q).1) := by
  rcases argmax_ok_or_err s.Q p q with ⟨ip, iq, hp, hq2⟩ | ⟨hp, hq2⟩
  · rw [playSelect_ok s t p ip hp, playSelect_ok s t q iq hq2]
    rfl
  · rw [playSelect_err s t p _ hp, playSelect_err s t q _ hq2]

/-- A successful `play` went through a successful `argmax_rand` on the score
array (which the round-re-issue bookkeeping does not modify), and returns
that index plus one. -/
theorem play_ok_argmax (s : UCBState) (t : ℤ) (p : ℕ) (A : ℤ)
    (h : (ucbPlay s t p).1 = .ok A) :
    ∃ i : ℕ, argmax_rand s.Q p = .ok i ∧ A = (i : ℤ) + 1 := by
  cases hprev : dget s.arm_at_t t with
  | none =>
    rw [ucbPlay_fresh s t p hprev] at h
    cases hargmax : argmax_rand s.Q p with
    | error e => rw [playSelect_err s t p e hargmax] at h; simp at h
    | ok i =>
      rw [playSelect_ok s t p i hargmax] at h
      simp only [Except.ok.injEq] at h
      exact ⟨i, rfl, h.symm⟩
  | some prev =>
    cases hc : dget s.num_times_arm prev with
    | none =>
      rw [ucbPlay_repeat_missing s t p prev hprev hc] at h
      simp at h
    | some c =>
      rw [ucbPlay_repeat s t p prev c hprev hc] at h
      cases hargmax : argmax_rand s.Q p with
      | error e =>
        rw [playSelect_err
          { s with num_times_arm := dset s.num_times_arm prev (c - 1) }
          t p e hargmax] at h
        simp at h
      | ok i =>
        rw [playSelect_ok
          { s with num_times_arm := dset s.num_times_arm prev (c - 1) }
          t p i hargmax] at h
        simp only [Except.ok.injEq] at h
        exact ⟨i, rfl, h.symm⟩

/-- C9 (amended): `update` takes no random input, and `play` is random only
in its tie-break: whether a `play` call succeeds does not depend on the
random draw, and the arms returned by any two draws on the same state and
round carry equal scores (both equal to the maximum). -/
theorem C9_play_random_only_in_tiebreak (s : UCBState) (t : ℤ) (p q : ℕ) :
    isOkB ((ucbPlay s t p).1) = isOkB ((ucbPlay s t q).1) ∧
    (∀ A B, (ucbPlay s t p).1 = .ok A → (ucbPlay s t q).1 = .ok B →
      npGet s.Q (A - 1) = npGet s.Q (B - 1)) := by
  constructor
  · cases hprev : dget s.arm_at_t t with
    | none =>
      rw [ucbPlay_fresh s t p hprev, ucbPlay_fresh s t q hprev]
      exact playSelect_isOkB_eq s t p q
    | some prev =>
      cases hc : dget s.num_times_arm prev with
      | none =>
        rw [ucbPlay_repeat_missing s t p prev hprev hc,
          ucbPlay_repeat_missing s t q prev hprev hc]
      | some c =>
        rw [ucbPlay_repeat s t p prev c hprev hc,
          ucbPlay_repeat s t q prev c hprev hc]
        exact playSelect_isOkB_eq
          { s with num_times_arm := dset s.num_times_arm prev (c - 1) } t p q
  · intro A B hA hB
    obtain ⟨i, hi, hAi⟩ := play_ok_argmax s t p A hA
    obtain ⟨j, hj, hBj⟩ := play_ok_argmax s t q B hB
    obtain ⟨m, hm, hilen, him⟩ := argmax_ok_spec s.Q p i hi
    obtain ⟨m', hm', hjlen, hjm⟩ := argmax_ok_spec s.Q q j hj
    rw [hm] at hm'
    have hmm : m = m' := by injection hm'
    have h1 : A - 1 = (i : ℤ) := by omega
    have h2 : B - 1 = (j : ℤ) := by omega
    rw [h1, h2, npGet_intCast s.Q i hilen, npGet_intCast s.Q j hjlen,
      him, hjm, hmm]

/-- Witness for C9: on a fresh two-arm selector (both scores `0`), draws `0`
and `1` of `play(1)` agree on success and return arms of equal score. -/
theorem C9_play_random_only_in_tiebreak_witness :
    (isOkB ((ucbPlay (ucbInit 2 (.fin 1) (.fin 0)) 1 0).1)
      = isOkB ((ucbPlay (ucbInit 2 (.fin 1) (.fin 0)) 1 1).1)) ∧
    npGet (ucbInit 2 (.fin 1) (.fin 0)).Q ((1 : ℤ) - 1)
      = npGet (ucbInit 2 (.fin 1) (.fin 0)).Q ((2 : ℤ) - 1) :=
  ⟨(C9_play_random_only_in_tiebreak (ucbInit 2 (.fin 1) (.fin 0)) 1 0 1).1,
   (C9_play_random_only_in_tiebreak (ucbInit 2 (.fin 1) (.fin 0)) 1 0 1).2
     1 2 rfl rfl⟩

theorem get?_lt_of_some {α : Type} {xs : List α} {j : ℕ} {w : α}
    (h : xs.get? j = some w) : j < xs.length := by
  induction xs generalizing j with
  | nil => simp at h
  | cons x tl ih =>
    cases j with
    | zero => simp
    | succ j' =>
      simp only [List.get?_cons_succ] at h
      simpa using ih h

theorem RVal.fmax_choice (a b : RVal) :
    RVal.fmax a b = a ∨ RVal.fmax a b = b := by
  cases a with
  | nan => left; cases b <;> rfl
  | inf => cases b <;> simp [RVal.fmax]
  | ninf => cases b <;> simp [RVal.fmax]
  | fin qa =>
    cases b with
    | nan => right; rfl
    | inf => right; rfl
    | ninf => left; rfl
    | fin qb =>
      rcases max_choice qa qb with h | h
      · left; simp [RVal.fmax, h]
      · right; simp [RVal.fmax, h]

theorem foldl_fmax_mem (xs : List RVal) (a : RVal) :
    xs.foldl RVal.fmax a = a ∨ xs.foldl RVal.fmax a ∈ xs := by
  induction xs generalizing a with
  | nil => left; rfl
  | cons x tl ih =>
    rw [List.foldl_cons]
    rcases ih (RVal.fmax a x) with h | h
    · rcases RVal.fmax_choice a x with h2 | h2
      · left; rw [h, h2]
      · right; rw [h, h2]; simp
    · right; simp [h]

theorem RVal.beq_refl_of_ne_nan (x : RVal) (h : x ≠ .nan) :
    RVal.beq x x = true := by
  cases x <;> simp_all [RVal.beq]

/-- On a nonempty array with no NaN entry, the maximum is attained at some
index, and is itself not NaN. -/
theorem listMax_attained (xs : List RVal) (hne : 0 < xs.length)
    (hnan : ∀ x ∈ xs, x ≠ RVal.nan) :
    ∃ m j, listMax xs = some m ∧ j < xs.length ∧ xs.getD j .nan = m ∧
      m ≠ RVal.nan := by
  cases xs with
  | nil => simp at hne
  | cons x tl =>
    have hmem : tl.foldl RVal.fmax x ∈ x :: tl := by
      rcases foldl_fmax_mem tl x with h | h
      · simp [h]
      · simp [h]
    have hmn : tl.foldl RVal.fmax x ≠ RVal.nan := hnan _ hmem
    obtain ⟨j, hj⟩ := List.mem_iff_get?.mp hmem
    refine ⟨tl.foldl RVal.fmax x, j, rfl, get?_lt_of_some hj, ?_, hmn⟩
    rw [getD_eq_lookup, hj]
    rfl

/-- On a nonempty no-NaN array the tie list is nonempty and `argmax_rand`
succeeds, returning an index, for every random draw. -/
theorem argmax_ok_of_nonan (a : List RVal) (pick : ℕ) (hne : 0 < a.length)
    (hnan : ∀ x ∈ a, x ≠ RVal.nan) :
    ∃ i, argmax_rand a pick = .ok i := by
  obtain ⟨m, j, hm, hjlen, hjm, hmnan⟩ := listMax_attained a hne hnan
  rw [argmax_eval a pick m hm]
  cases hf : (List.range a.length).filter
      (fun k => RVal.beq (a.getD k .nan) m) with
  | nil =>
    exfalso
    have hjf : j ∈ (List.range a.length).filter
        (fun k => RVal.beq (a.getD k .nan) m) := by
      rw [List.mem_filter]
      exact ⟨List.mem_range.mpr hjlen,
        by simp only [hjm]; exact RVal.beq_refl_of_ne_nan m hmnan⟩
    rw [hf] at hjf
    simp at hjf
  | cons t ts => exact ⟨_, rfl⟩

/-- C3 (amended): whenever no current score is NaN (and the selector has at
least one arm, with a well-formed history for the requested round), every
`play` call — under every outcome of the random tie-break — returns exactly
one arm, 1-indexed in `[1, narms]`, whose score equals the maximum score.
(With a NaN score present, as happens after one round under the default
`Q0 = +inf`, `play` instead raises `ValueError`.) -/
theorem C3_play_returns_argmax (s : UCBState) (t : ℤ) (p : ℕ)
    (h0 : 0 < s.Q.length) (hn : s.Q.length = s.narms)
    (hnan : ∀ x ∈ s.Q, x ≠ RVal.nan)
    (hist : ∀ prev, dget s.arm_at_t t = some prev →
      ∃ c, dget s.num_times_arm prev = some c) :
    ∃ (A : ℤ) (s' : UCBState) (m : RVal),
      ucbPlay s t p = (.ok A, s') ∧ 1 ≤ A ∧ A ≤ (s.narms : ℤ) ∧
      listMax s.Q = some m ∧ npGet s.Q (A - 1) = some m := by
  obtain ⟨i, hargmax⟩ := argmax_ok_of_nonan s.Q p h0 hnan
  obtain ⟨m, hm, hilen, him⟩ := argmax_ok_spec s.Q p i hargmax
  have hnp : npGet s.Q ((i : ℤ) + 1 - 1) = some m := by
    have he : ((i : ℤ) + 1 - 1) = (i : ℤ) := by omega
    rw [he, npGet_intCast s.Q i hilen, him]
  cases hprev : dget s.arm_at_t t with
  | none =>
    refine ⟨(i : ℤ) + 1,
      { s with arm_at_t := dset s.arm_at_t t (i : ℤ),
               num_times_arm := dset s.num_times_arm (i : ℤ)
                 (((dget s.num_times_arm (i : ℤ)).getD 0) + 1) },
      m, ?_, by omega, by omega, hm, hnp⟩
    rw [ucbPlay_fresh s t p hprev, playSelect_ok s t p i hargmax]
  | some prev =>
    obtain ⟨c, hc⟩ := hist prev hprev
    refine ⟨(i : ℤ) + 1,
      { s with arm_at_t := dset s.arm_at_t t (i : ℤ),
               num_times_arm :=
                 dset (dset s.num_times_arm prev (c - 1)) (i : ℤ)
                   (((dget (dset s.num_times_arm prev (c - 1))
                     (i : ℤ)).getD 0) + 1) },
      m, ?_, by omega, by omega, hm, hnp⟩
    rw [ucbPlay_repeat s t p prev c hprev hc,
      playSelect_ok
        { s with num_times_arm := dset s.num_times_arm prev (c - 1) }
        t p i hargmax]

/-- Witness for C3: on a fresh two-arm selector with finite `Q0 = 5` (scores
`[0, 0]`, no NaN), `play(1)` under draw `0` returns an arm in `[1, 2]` whose
score is the maximum. -/
theorem C3_play_returns_argmax_witness :
    ∃ (A : ℤ) (s' : UCBState) (m : RVal),
      ucbPlay (ucbInit 2 (.fin 1) (.fin 5)) 1 0 = (.ok A, s') ∧ 1 ≤ A ∧
      A ≤ ((ucbInit 2 (.fin 1) (.fin 5)).narms : ℤ) ∧
      listMax (ucbInit 2 (.fin 1) (.fin 5)).Q = some m ∧
      npGet (ucbInit 2 (.fin 1) (.fin 5)).Q (A - 1) = some m :=
  C3_play_returns_argmax (ucbInit 2 (.fin 1) (.fin 5)) 1 0
    (by norm_num [ucbInit])
    (by norm_num [ucbInit])
    (by intro x hx; simp [ucbInit] at hx; subst hx; simp)
    (by intro prev hp; simp [ucbInit, dget] at hp)

theorem npGet_replicate_eq {n : ℕ} {x w : RVal} {i : ℤ}
    (h : npGet (List.replicate n x) i = some w) : w = x := by
  unfold npGet at h
  cases hidx : npIdx (List.replicate n x).length i with
  | none => rw [hidx] at h; simp at h
  | some j =>
    rw [hidx] at h
    simp only [Option.some_bind] at h
    exact List.eq_of_mem_replicate (List.get?_mem h)

/-- Closed form of the iterated incremental-mean recurrence: starting from
mean `m` over `k ≥ 1` samples, folding in `rs` gives the overall mean. -/
theorem foldMean_eq (rs : List ℚ) : ∀ (m : ℚ) (k : ℕ), 0 < k →
    foldMean m k rs = (m * k + rs.sum) / (k + rs.length) := by
  induction rs with
  | nil =>
    intro m k hk
    have hk' : (k : ℚ) ≠ 0 := Nat.cast_ne_zero.mpr (by omega)
    simp [foldMean]
    field_simp
  | cons r rest ih =>
    intro m k hk
    show foldMean ((m * k + r) / (k + 1)) (k + 1) rest = _
    rw [ih ((m * k + r) / (k + 1)) (k + 1) (by omega)]
    have hk1 : ((k : ℚ) + 1) ≠ 0 := by positivity
    push_cast
    rw [div_mul_cancel₀ _ hk1]
    rw [List.sum_cons, List.length_cons]
    push_cast
    ring_nf

/-- One step of the mean rewrite of `UCB.update`, on finite values: with a
prior mean `m` over `k` pulls and count now `k + 1`, the formula
`(mu * (n - 1) + reward) / n` yields `(m * k + r) / (k + 1)` exactly. -/
theorem meanStep (m r : ℚ) (k : ℕ) :
    RVal.div (RVal.add (RVal.mul (.fin m) (intToR ((k : ℤ) + 1 - 1)))
        (.fin r)) (intToR ((k : ℤ) + 1))
      = .fin ((m * k + r) / (k + 1)) := by
  have h1 : ((k : ℤ) + 1 - 1) = (k : ℤ) := by ring
  rw [h1]
  simp only [intToR, RVal.mul, RVal.add, RVal.div]
  rw [if_neg (by push_cast; positivity)]
  congr 1
  push_cast
  ring

/-- Invariant carried through a `PairsOn` trace: if arm `A`'s recorded count
is `k` and its mean is forced to be `fin m`, then after the trace the count
has grown by the number of pairs and the mean is the folded mean. -/
theorem pairsOn_mean_aux (fl fs : ℚ → ℚ) (A : ℤ) (s : UCBState)
    (rs : List ℚ) (s' : UCBState) (hp : PairsOn fl fs A s rs s') :
    ∀ (k : ℕ) (m : ℚ),
      (dget s.num_times_arm (A - 1)).getD 0 = (k : ℤ) →
      (∀ w, npGet s.Q_mu (A - 1) = some w → w = .fin m) →
      (∀ w, npGet s'.Q_mu (A - 1) = some w → w = .fin (foldMean m k rs)) ∧
      (dget s'.num_times_arm (A - 1)).getD 0 = ((k + rs.length : ℕ) : ℤ) ∧
      (rs ≠ [] → ∃ w, npGet s'.Q_mu (A - 1) = some w) := by
  induction hp with
  | nil s0 =>
    intro k m hk hw
    exact ⟨fun w hw' => hw w hw', by simpa using hk, by simp⟩
  | cons s0 s1 s2 s3 t p r rs0 hfresh hplay hupd hrest ih =>
    intro k m hk hw
    rw [ucbPlay_fresh s0 t p hfresh] at hplay
    cases hargmax : argmax_rand s0.Q p with
    | error e =>
      rw [playSelect_err s0 t p e hargmax] at hplay
      simp at hplay
    | ok i =>
      rw [playSelect_ok s0 t p i hargmax] at hplay
      simp only [Prod.mk.injEq, Except.ok.injEq] at hplay
      obtain ⟨hA, hs1⟩ := hplay
      have hiA : (i : ℤ) = A - 1 := by omega
      have hd1 : dget s1.num_times_arm (A - 1) = some ((k : ℤ) + 1) := by
        rw [← hs1]
        dsimp only
        rw [← hiA, dget_dset_self]
        rw [hiA, hk]
      have hq1 : s1.Q_mu = s0.Q_mu := by rw [← hs1]
      cases hq : npGet s1.Q_mu (A - 1) with
      | none =>
        rw [ucbUpdate_np_none fl fs s1 A (.fin r) hq] at hupd
        simp at hupd
      | some qmu =>
        have hqmu : qmu = .fin m := hw qmu (by rw [← hq1]; exact hq)
        rw [ucbUpdate_counted fl fs s1 A (.fin r) qmu ((k : ℤ) + 1) hq hd1]
          at hupd
        simp only [Prod.mk.injEq] at hupd
        obtain ⟨hloop, hs2⟩ := hupd
        have hs2mu : s2.Q_mu = npSet s1.Q_mu (A - 1)
            (RVal.div (RVal.add (RVal.mul qmu (intToR ((k : ℤ) + 1 - 1)))
              (.fin r)) (intToR ((k : ℤ) + 1))) := by
          rw [← hs2]
        have hs2num : s2.num_times_arm = s1.num_times_arm := by rw [← hs2]
        have hq2new : npGet s2.Q_mu (A - 1)
            = some (.fin ((m * k + r) / (k + 1))) := by
          rw [hs2mu, npGet_npSet_self _ hq, hqmu, meanStep m r k]
        have hd2 : (dget s2.num_times_arm (A - 1)).getD 0
            = ((k + 1 : ℕ) : ℤ) := by
          rw [hs2num, hd1]
          simp only [Option.getD_some]
          push_cast
          ring
        have hw2 : ∀ w, npGet s2.Q_mu (A - 1) = some w →
            w = .fin ((m * k + r) / (k + 1)) := by
          intro w hww
          rw [hq2new] at hww
          exact (Option.some.inj hww).symm
        obtain ⟨ih1, ih2, ih3⟩ := ih (k + 1) ((m * k + r) / (k + 1)) hd2 hw2
        refine ⟨ih1, ?_, ?_⟩
        · rw [ih2, List.length_cons]
          push_cast
          ring
        · intro _
          by_cases hrs : rs0 = []
          · subst hrs
            cases hrest
            exact ⟨_, hq2new⟩
          · exact ih3 hrs

/-- C4 (amended): for every *finite* `Q0`, every arm `A`, and every trace of
`k ≥ 1` fresh-round `play`/`update` pairs on `A` with rewards `rs` starting
from a fresh selector, the arm's mean afterwards is the arithmetic mean of
`rs` — the initial value is fully displaced by the first update.  (For the
default `Q0 = +inf` this fails: the first update stores `inf * 0 = NaN`.) -/
theorem C4_mean_arithmetic (fl fs : ℚ → ℚ) (narms : ℕ) (rho : RVal)
    (q0 : ℚ) (A : ℤ) (rs : List ℚ) (s' : UCBState)
    (hp : PairsOn fl fs A (ucbInit narms rho (.fin q0)) rs s')
    (hne : rs ≠ []) :
    npGet s'.Q_mu (A - 1) = some (.fin (rs.sum / rs.length)) := by
  obtain ⟨h1, h2, h3⟩ := pairsOn_mean_aux fl fs A
    (ucbInit narms rho (.fin q0)) rs s' hp 0 q0
    (by simp [ucbInit, dget])
    (fun w hw => npGet_replicate_eq hw)
  obtain ⟨w, hww⟩ := h3 hne
  have hwv := h1 w hww
  have key : foldMean q0 0 rs = rs.sum / rs.length := by
    cases rs with
    | nil => exact absurd rfl hne
    | cons r rest =>
      have hstep : foldMean q0 0 (r :: rest) = foldMean r 1 rest := by
        norm_num [foldMean]
      rw [hstep, foldMean_eq rest r 1 (by omega)]
      rw [List.sum_cons, List.length_cons]
      push_cast
      ring_nf
  rw [hww, hwv, key]

/-- Witness for C4: a single pair on arm `1` with reward `3` from a fresh
one-arm selector with finite `Q0 = 7` yields mean `3/1`. -/
theorem C4_mean_arithmetic_witness :
    PairsOn (fun _ => 0) (fun _ => 0) 1 (ucbInit 1 (.fin 1) (.fin 7)) [3]
      ((ucbUpdate (fun _ => 0) (fun _ => 0)
        ((ucbPlay (ucbInit 1 (.fin 1) (.fin 7)) 1 0).2) 1 (.fin 3)).2) ∧
    npGet ((ucbUpdate (fun _ => 0) (fun _ => 0)
      ((ucbPlay (ucbInit 1 (.fin 1) (.fin 7)) 1 0).2) 1 (.fin 3)).2).Q_mu
        (1 - 1)
      = some (.fin (List.sum [(3 : ℚ)] / (List.length [(3 : ℚ)] : ℚ))) := by
  have hp : PairsOn (fun _ => 0) (fun _ => 0) 1
      (ucbInit 1 (.fin 1) (.fin 7)) [3]
      ((ucbUpdate (fun _ => 0) (fun _ => 0)
        ((ucbPlay (ucbInit 1 (.fin 1) (.fin 7)) 1 0).2) 1 (.fin 3)).2) :=
    PairsOn.cons _ _ _ _ 1 0 3 [] rfl rfl rfl (PairsOn.nil _)
  exact ⟨hp, C4_mean_arithmetic (fun _ => 0) (fun _ => 0) 1 (.fin 1) 7 1
    [3] _ hp (by simp)⟩
